import Mathlib

/-!
Verification development for the HT-Grouper core: a shallow embedding of
`src/q-library/pauli.h` and `src/q-library/find_ht_circuit.h`, together with
models (from the specification) of the collaborators that are declared but not
defined in those headers (`binary_phase.h`, `graph.h`, `binary_pauli.h`,
`symbolic.h`, and the external MIP solver).

Machine unsigned 64-bit words are embedded as `Nat` values kept below `2 ^ 64`
by the operations that can wrap (two's-complement negation); `std::popcount`
on `uint64_t` is embedded as a sum over the 64 bit positions.
-/

namespace Q

/-- Modelled from the spec: `binary_phase.h` is not under `src/`; per the spec,
`BinaryPhase` is a tiny arithmetic value type holding "a phase value in the
additive group mod 4". -/
abbrev BinaryPhase := ZMod 4

/-- Embedding of `std::popcount` on a `uint64_t` value: the number of set bits
among positions 0..63. -/
def popcount64 (x : Nat) : Nat :=
  ((List.range 64).map fun i => (x >>> i) % 2).sum

/-- Two's-complement conversion of `-value` (a C++ `int`) to `uint64_t`:
for `value = 0` this is `0`, for `value = 1` it is the all-ones word. -/
def neg64 (value : Nat) : Nat :=
  (2 ^ 64 - value) % 2 ^ 64

/-- Embedding of `Q::Pauli` (`pauli.h`): bit-packed X/Z components `r`/`s`
(`uint64_t`), qubit count `n` (`int n{ 1 }`), and the stored XZ-convention
phase. Equality is the defaulted member-wise comparison. -/
structure Pauli where
  r : Nat := 0
  s : Nat := 0
  n : Nat := 1
  phase : BinaryPhase := 0
deriving DecidableEq

instance : Inhabited Pauli := ⟨{}⟩

namespace Pauli

/-- `Pauli::x`: `(r >> qubit) & 1ULL`. -/
def x (p : Pauli) (qubit : Nat) : Nat := (p.r >>> qubit) &&& 1

/-- `Pauli::z`: `(s >> qubit) & 1ULL`. -/
def z (p : Pauli) (qubit : Nat) : Nat := (p.s >>> qubit) &&& 1

/-- `Pauli::setX`: `r ^= (-value ^ r) & (1ULL << qubit)`. -/
def setX (p : Pauli) (qubit : Nat) (value : Nat) : Pauli :=
  { p with r := p.r ^^^ ((neg64 value ^^^ p.r) &&& (1 <<< qubit)) }

/-- `Pauli::setZ`: `s ^= (-value ^ r) & (1ULL << qubit)` — note the source
really reads `r`, not `s`, inside the parenthesised expression. -/
def setZ (p : Pauli) (qubit : Nat) (value : Nat) : Pauli :=
  { p with s := p.s ^^^ ((neg64 value ^^^ p.r) &&& (1 <<< qubit)) }

/-- `Pauli::getYPhase`: `BinaryPhase{ std::popcount(r & s) }`. -/
def getYPhase (p : Pauli) : BinaryPhase := (popcount64 (p.r &&& p.s) : BinaryPhase)

/-- `Pauli::getPhase`: `phase - getYPhase()`. -/
def getPhase (p : Pauli) : BinaryPhase := p.phase - p.getYPhase

/-- `Pauli::getXZPhase`: the stored phase. -/
def getXZPhase (p : Pauli) : BinaryPhase := p.phase

/-- `Pauli::pauliWeight`: `std::popcount(r | s)`. -/
def pauliWeight (p : Pauli) : Nat := popcount64 (p.r ||| p.s)

/-- `Pauli::identityCount`: `n - pauliWeight()` in C++ `int` arithmetic. -/
def identityCount (p : Pauli) : Int := (p.n : Int) - (p.pauliWeight : Int)

/-- `Pauli::getXString`: the raw `r` bit-field. -/
def getXString (p : Pauli) : Nat := p.r

/-- `Pauli::getZString`: the raw `s` bit-field. -/
def getZString (p : Pauli) : Nat := p.s

/-- `Pauli::getIdentityString`: `~(r | s)` on the full 64-bit word. -/
def getIdentityString (p : Pauli) : Nat := (p.r ||| p.s) ^^^ (2 ^ 64 - 1)

end Pauli

/-- `Q::commutator`: `std::popcount((p1.r & p2.s) ^ (p2.r & p1.s)) & 1`. -/
def commutator (p1 p2 : Pauli) : Nat :=
  popcount64 ((p1.r &&& p2.s) ^^^ (p2.r &&& p1.s)) &&& 1

/-- One iteration of the `switch` in `Pauli::fromStringOperator`, OR-ing the
bits contributed by character `c` at position `i` into the pair `(r, s)`. -/
def charStep (rs : Nat × Nat) (c : Char) (i : Nat) : Nat × Nat :=
  if c = 'I' then rs
  else if c = 'X' then (rs.1 ||| (1 <<< i), rs.2)
  else if c = 'Y' then (rs.1 ||| (1 <<< i), rs.2 ||| (1 <<< i))
  else if c = 'Z' then (rs.1, rs.2 ||| (1 <<< i))
  else rs

/-- The loop of `Pauli::fromStringOperator`: left-to-right accumulation of the
character contributions, starting at position `i`. -/
def scanChars : List Char → Nat → Nat × Nat → Nat × Nat
  | [], _, rs => rs
  | c :: cs, i, rs => scanChars cs (i + 1) (charStep rs c i)

namespace Pauli

/-- `Pauli::fromStringOperator`: sets `n` to the string length and fills the
`r`/`s` bit-fields; it does not touch the phase. -/
def fromStringOperator (cs : List Char) : Pauli :=
  let rs := scanChars cs 0 (0, 0)
  { r := rs.1, s := rs.2, n := cs.length, phase := 0 }

/-- The phase marker recognised by the `Pauli` string constructor together with
the remaining operator string: `i` adds 1, `-i` adds 3, `-` adds 2 (checked in
that order, as the `starts_with` chain in the source). -/
def splitPhaseMark (cs : List Char) : BinaryPhase × List Char :=
  if cs.take 1 = ['i'] then (1, cs.drop 1)
  else if cs.take 2 = ['-', 'i'] then (3, cs.drop 2)
  else if cs.take 1 = ['-'] then (2, cs.drop 1)
  else (0, cs)

/-- The `Pauli(std::string_view)` constructor: strip the optional phase marker,
parse the operator characters, then `phase += getYPhase()`. -/
def ofChars (cs : List Char) : Pauli :=
  let pr := splitPhaseMark cs
  let p := fromStringOperator pr.2
  { p with phase := pr.1 + p.getYPhase }

/-- The `Pauli(std::string_view)` constructor, at `String` level. -/
def ofString (str : String) : Pauli := ofChars str.toList

/-- The character table `c{ 'I','X','Z','Y' }` of `Pauli::toString`, indexed by
`x(i) + z(i) * 2`. -/
def pauliChar (v : Nat) : Char := ['I', 'X', 'Z', 'Y'].getD v 'I'

/-- `Pauli::toString`, as the list of its characters. -/
def toChars (p : Pauli) : List Char :=
  (List.range p.n).map fun i => pauliChar (p.x i + p.z i * 2)

/-- `Pauli::toString`. -/
def toString (p : Pauli) : String := String.mk p.toChars

end Pauli

/-- Modelled from the spec: `BinaryPhase::toString` (`binary_phase.h`, not under
`src/`) renders the phase marker used when printing an operator: `i` for phase
1, `-` for phase 2, `-i` for phase 3, nothing for phase 0. -/
def phaseMarkChars (ph : BinaryPhase) : List Char :=
  if ph = 1 then ['i'] else if ph = 2 then ['-'] else if ph = 3 then ['-', 'i'] else []

/-- The phase marker as a `String`. -/
def phaseMarkStr (ph : BinaryPhase) : String := String.mk (phaseMarkChars ph)

/-- Whether a character contributes an X bit in `fromStringOperator`. -/
def xBitB (c : Char) : Bool := c == 'X' || c == 'Y'

/-- Whether a character contributes a Z bit in `fromStringOperator`. -/
def zBitB (c : Char) : Bool := c == 'Z' || c == 'Y'

/-- Characters outside `{I,X,Y,Z}` parsed as identity: the replacement applied
by the tolerant-parsing theorem. -/
def sanitizeChar (c : Char) : Char :=
  if c = 'I' ∨ c = 'X' ∨ c = 'Y' ∨ c = 'Z' then c else 'I'

/-- Modelled from the spec: `graph.h` is not under `src/`; per the spec a graph
holds an n-vertex 0/1 adjacency matrix, exposed through `numVertices()` and
`getAdjacencyMatrix()` (whose entries `findHTCircuit` casts to `int`). -/
structure Graph where
  numVertices : Nat
  adjacency : Nat → Nat → Bool

/-- The `adjacencyMatrix.cast<int>()` entry at `(i, k)`. -/
def Graph.adjInt (g : Graph) (i k : Nat) : Int := if g.adjacency i k then 1 else 0

/-- Modelled from the spec: `binary_pauli.h` is not under `src/`; per the spec a
`BinaryCliffordGate` is a 2×2 binary symplectic matrix with entries
`axx, axz, azx, azz`, filled in `findHTCircuit` from the solver's variable
values. -/
structure BinaryCliffordGate where
  axx : Int
  axz : Int
  azx : Int
  azz : Int
deriving DecidableEq

instance : Inhabited BinaryCliffordGate := ⟨⟨0, 0, 0, 0⟩⟩

/-- The four unknown blocks of the per-qubit symplectic matrix; the solver
variable vectors `axxVars, axzVars, azxVars, azzVars` are indexed in this order
(`(name[1] == 'z') * 2 + (name[2] == 'z')` in `toGRBLinExpression`). -/
inductive Block where
  | bxx
  | bxz
  | bzx
  | bzz
deriving DecidableEq

/-- The `aVars` index of a block. -/
def Block.index : Block → Nat
  | .bxx => 0
  | .bxz => 1
  | .bzx => 2
  | .bzz => 3

/-- A value assignment to the solver's binary unknowns `a⟨block⟩⟨qubit⟩`. -/
def Assignment := Block → Nat → Int

/-- A solver linear expression over the binary unknowns: a constant plus
`coefficient · variable` summands. -/
structure LinForm where
  const : Int
  coeffs : List (Int × Block × Nat)
deriving DecidableEq

instance : Inhabited LinForm := ⟨⟨0, []⟩⟩

/-- Value of a linear expression under an assignment. -/
def LinForm.eval (e : LinForm) (σ : Assignment) : Int :=
  e.const + (e.coeffs.map fun t => t.1 * σ t.2.1 t.2.2).sum

/-- The `R` matrix entry `R(i, j) = RS[j].x(i)` built by `findHTCircuit`. -/
def Rmat (RS : List Pauli) (i j : Nat) : Int := ((RS.getD j default).x i : Int)

/-- The `S` matrix entry `S(i, j) = RS[j].z(i)` built by `findHTCircuit`. -/
def Smat (RS : List Pauli) (i j : Nat) : Int := ((RS.getD j default).z i : Int)

/-- Modelled from the spec: the symbolic engine (`symbolic.h`) and the matrix
arithmetic (`Math::Matrix`, `Math::diag`) are not under `src/`. Per the spec,
with diagonal unknown matrices the simplified entry `(i, j)` of
`adjacencyMatrix.cast<int>() * (Axx*R + Axz*S) + Azx*R + Azz*S` is the linear
polynomial `Σ_k A[i,k]·(R[k,j]·axx_k + S[k,j]·axz_k) + R[i,j]·azx_i +
S[i,j]·azz_i`, which `toGRBLinExpression` maps to the solver linear expression
by substituting each symbol's binary variable. -/
def lhsForm (g : Graph) (RS : List Pauli) (i j : Nat) : LinForm :=
  { const := 0
  , coeffs :=
      ((List.range g.numVertices).map fun k => (g.adjInt i k * Rmat RS k j, Block.bxx, k))
      ++ ((List.range g.numVertices).map fun k => (g.adjInt i k * Smat RS k j, Block.bxz, k))
      ++ [(Rmat RS i j, Block.bzx, i), (Smat RS i j, Block.bzz, i)] }

/-- The model `findHTCircuit` hands to the external solver: `4·numQubits`
binary variables with a quadratic symplectic constraint per qubit, and one
linear constraint `0.5 · lhs[i,j] == dummyVars[i·m+j]` per equation, each with
its own integer slack variable bounded by `addVar(-1000, 1000, 0.0,
GRB_INTEGER, "")` (`none` bounds would mean an unbounded variable). -/
structure SolverModel where
  numQubits : Nat
  slackLB : Option Int
  slackUB : Option Int
  linConstrs : List LinForm
deriving DecidableEq

/-- The model built by either `findHTCircuit` variant from a graph, a generator
list and the generator count `m` used for the equations. -/
def buildModel (g : Graph) (RS : List Pauli) (m : Nat) : SolverModel :=
  { numQubits := g.numVertices
  , slackLB := some (-1000)
  , slackUB := some 1000
  , linConstrs := (List.range g.numVertices).flatMap fun i =>
      (List.range m).map fun j => lhsForm g RS i j }

/-- Satisfiability of the constraint `0.5 · L == k` for an integer slack
variable `k` subject to the given bounds. -/
def SlackSat (lb ub : Option Int) (L : Int) : Prop :=
  ∃ k : Int, (∀ l, lb = some l → l ≤ k) ∧ (∀ u, ub = some u → k ≤ u) ∧ L = 2 * k

/-- An assignment satisfies every constraint added to the model: binary bounds
on the `a` variables, the quadratic symplectic constraint
`axx_i·azz_i + axz_i·azx_i == 1` per qubit, and the slack-variable linear
constraint per equation. -/
def Satisfies (model : SolverModel) (σ : Assignment) : Prop :=
  (∀ b : Block, ∀ i < model.numQubits, σ b i = 0 ∨ σ b i = 1)
  ∧ (∀ i < model.numQubits,
      σ Block.bxx i * σ Block.bzz i + σ Block.bxz i * σ Block.bzx i = 1)
  ∧ (∀ e ∈ model.linConstrs, SlackSat model.slackLB model.slackUB (e.eval σ))

/-- Executable check of `SlackSat`. -/
def slackSatB (lb ub : Option Int) (L : Int) : Bool :=
  decide (L % 2 = 0)
  && (match lb with | some l => decide (2 * l ≤ L) | none => true)
  && (match ub with | some u => decide (L ≤ 2 * u) | none => true)

/-- Executable check of `Satisfies`. -/
def checkSat (model : SolverModel) (σ : Assignment) : Bool :=
  ((List.range model.numQubits).all fun i =>
    [Block.bxx, Block.bxz, Block.bzx, Block.bzz].all fun b =>
      decide (σ b i = 0) || decide (σ b i = 1))
  && ((List.range model.numQubits).all fun i =>
      decide (σ Block.bxx i * σ Block.bzz i + σ Block.bxz i * σ Block.bzx i = 1))
  && (model.linConstrs.all fun e => slackSatB model.slackLB model.slackUB (e.eval σ))

/-- Outcome of one call to the external solver, as observed by
`findHTCircuit`: a status code with the solution values, a `GRBException`, or
any other exception. -/
inductive SolverOutcome where
  | normal (status : Int) (σ : Assignment)
  | grbException (code : Int) (msg : String)
  | otherException

/-- What one `findHTCircuit` call produces: the optional gate list and the
lines printed on the error path. -/
structure RunResult where
  result : Option (List BinaryCliffordGate)
  log : List String
deriving DecidableEq

/-- Reading back the solution: one gate per qubit from the four binary
variables' values. -/
def decodeGates (σ : Assignment) (n : Nat) : List BinaryCliffordGate :=
  (List.range n).map fun i =>
    ⟨σ Block.bxx i, σ Block.bxz i, σ Block.bzx i, σ Block.bzz i⟩

/-- The common body of both `findHTCircuit` variants: build the model, run the
solver, return `nullopt` on a status other than 2 (`GRB_OPTIMAL`), decode the
gates on status 2, and catch every exception (printing a diagnostic) into the
same `nullopt` result. -/
def runHT (g : Graph) (RS : List Pauli) (m : Nat)
    (solver : SolverModel → SolverOutcome) : RunResult :=
  match solver (buildModel g RS m) with
  | SolverOutcome.normal status σ =>
      if status ≠ 2 then ⟨none, []⟩
      else ⟨some (decodeGates σ g.numVertices), []⟩
  | SolverOutcome.grbException code msg =>
      ⟨none, [r"Error code = " ++ ToString.toString code, msg]⟩
  | SolverOutcome.otherException =>
      ⟨none, [r"Exception during optimization"]⟩

/-- The templated fixed-size `findHTCircuit<numQubits>`: it sets
`numOperatorsPerSet = numQubits` ("generator suffices"). -/
def findHTCircuitFixed (g : Graph) (RS : List Pauli)
    (solver : SolverModel → SolverOutcome) : RunResult :=
  runHT g RS g.numVertices solver

/-- The dynamically-sized `findHTCircuit`: it sets
`numOperatorsPerSet = RS.size()`. -/
def findHTCircuitDyn (g : Graph) (RS : List Pauli)
    (solver : SolverModel → SolverOutcome) : RunResult :=
  runHT g RS RS.length solver

/-- All 0/1 integer lists of the given length. -/
def binLists : Nat → List (List Int)
  | 0 => [[]]
  | k + 1 => (binLists k).flatMap fun l => [0 :: l, 1 :: l]

/-- The assignment packing a flat 0/1 list as `a⟨block⟩⟨qubit⟩ =
l[4·qubit + blockIndex]`. -/
def listAssign (l : List Int) : Assignment := fun b i => l.getD (4 * i + b.index) 0

/-- Modelled from the spec: the external solver is out of scope; per the spec
it reports a status distinguishing optimal/feasible (code 2) from every other
outcome and, when feasible, exposes the variables' values. This model solver
decides feasibility exactly by exhaustive search over the binary unknowns. -/
def idealSolve (model : SolverModel) : SolverOutcome :=
  match (binLists (4 * model.numQubits)).find? (fun l => checkSat model (listAssign l)) with
  | some l => SolverOutcome.normal 2 (listAssign l)
  | none => SolverOutcome.normal 3 (fun _ _ => 0)

/-- A 1-vertex graph with no edges, used to instantiate the synthesis
theorems. -/
def graphK1 : Graph := ⟨1, fun _ _ => false⟩

/-- The defining equation system of the synthesis, per the spec: for every
(qubit i, generator j), `(A·(Axx·R + Axz·S))[i,j] + (Azx·R + Azz·S)[i,j] ≡ 0
(mod 2)`, evaluated at the returned gate values. -/
def specEqSystem (g : Graph) (RS : List Pauli) (m : Nat)
    (gates : List BinaryCliffordGate) : Prop :=
  ∀ i < g.numVertices, ∀ j < m,
    ((∑ k ∈ Finset.range g.numVertices,
        g.adjInt i k * ((gates.getD k default).axx * Rmat RS k j
          + (gates.getD k default).axz * Smat RS k j))
      + (gates.getD i default).azx * Rmat RS i j
      + (gates.getD i default).azz * Smat RS i j) % 2 = 0

/-- The per-qubit GF(2) invertibility condition on the returned gate values. -/
def specSymplectic (g : Graph) (gates : List BinaryCliffordGate) : Prop :=
  ∀ i < g.numVertices,
    ((gates.getD i default).axx * (gates.getD i default).azz
      + (gates.getD i default).axz * (gates.getD i default).azx) % 2 = 1

lemma testBit_one (k : Nat) : (1 : Nat).testBit k = decide (k = 0) := by
  cases k with
  | zero => rfl
  | succ k => simp [Nat.testBit_succ, Nat.zero_testBit]

lemma one_shiftLeft_testBit (i j : Nat) : ((1 : Nat) <<< i).testBit j = decide (j = i) := by
  rw [Nat.testBit_shiftLeft, testBit_one]
  rcases Nat.lt_trichotomy j i with h | h | h
  · have h1 : ¬ j ≥ i := by omega
    have h2 : ¬ j = i := by omega
    simp [h1, h2]
  · simp [h, Nat.le_refl]
  · have h1 : j ≥ i := Nat.le_of_lt h
    have h2 : ¬ j - i = 0 := by omega
    have h3 : ¬ j = i := by omega
    simp [h1, h2, h3]

lemma shiftRight_and_one (x j : Nat) : (x >>> j) &&& 1 = if x.testBit j then 1 else 0 := by
  rw [Nat.and_one_is_mod, Nat.shiftRight_eq_div_pow, Nat.testBit_to_div_mod]
  rcases Nat.mod_two_eq_zero_or_one (x / 2 ^ j) with h | h <;> simp [h]

lemma le_and_sub_bit (i j : Nat) :
    (decide (i ≤ j) && Nat.testBit 1 (j - i)) = decide (j = i) := by
  rw [testBit_one, ← Bool.decide_and, decide_eq_decide]
  omega

lemma charStep_testBit (rs : Nat × Nat) (c : Char) (i j : Nat) :
    ((charStep rs c i).1.testBit j = (rs.1.testBit j || (xBitB c && decide (j = i))))
    ∧ ((charStep rs c i).2.testBit j = (rs.2.testBit j || (zBitB c && decide (j = i)))) := by
  by_cases hI : c = 'I'
  · subst hI; simp [charStep, xBitB, zBitB]
  · by_cases hX : c = 'X'
    · subst hX; simp [charStep, xBitB, zBitB, Nat.testBit_lor, le_and_sub_bit]
    · by_cases hY : c = 'Y'
      · subst hY; simp [charStep, xBitB, zBitB, Nat.testBit_lor, le_and_sub_bit]
      · by_cases hZ : c = 'Z'
        · subst hZ; simp [charStep, xBitB, zBitB, Nat.testBit_lor, le_and_sub_bit]
        · simp [charStep, hI, hX, hY, hZ, xBitB, zBitB]

lemma scanChars_testBit (cs : List Char) : ∀ (i : Nat) (rs : Nat × Nat) (j : Nat),
    ((scanChars cs i rs).1.testBit j
        = (rs.1.testBit j || (decide (i ≤ j) && xBitB (cs.getD (j - i) 'I'))))
    ∧ ((scanChars cs i rs).2.testBit j
        = (rs.2.testBit j || (decide (i ≤ j) && zBitB (cs.getD (j - i) 'I')))) := by
  induction cs with
  | nil => intro i rs j; simp [scanChars, xBitB, zBitB]
  | cons c cs ih =>
    intro i rs j
    have h1 := ih (i + 1) (charStep rs c i) j
    have h2 := charStep_testBit rs c i j
    rcases Nat.lt_trichotomy j i with h | h | h
    · have e1 : ¬ i ≤ j := by omega
      have e2 : ¬ i + 1 ≤ j := by omega
      have e3 : ¬ j = i := by omega
      constructor
      · rw [scanChars, h1.1, h2.1]; simp [e1, e2, e3]
      · rw [scanChars, h1.2, h2.2]; simp [e1, e2, e3]
    · subst h
      have e1 : ¬ j + 1 ≤ j := by omega
      constructor
      · rw [scanChars, h1.1, h2.1]; simp [e1, Nat.le_refl]
      · rw [scanChars, h1.2, h2.2]; simp [e1, Nat.le_refl]
    · have e1 : i ≤ j := by omega
      have e2 : i + 1 ≤ j := by omega
      have e3 : ¬ j = i := by omega
      have e4 : j - i = (j - (i + 1)) + 1 := by omega
      constructor
      · rw [scanChars, h1.1, h2.1, e4]; simp [e1, e2, e3, List.getD_cons_succ]
      · rw [scanChars, h1.2, h2.2, e4]; simp [e1, e2, e3, List.getD_cons_succ]

lemma fromStringOperator_testBit (cs : List Char) (j : Nat) :
    ((Pauli.fromStringOperator cs).r.testBit j = xBitB (cs.getD j 'I'))
    ∧ ((Pauli.fromStringOperator cs).s.testBit j = zBitB (cs.getD j 'I')) := by
  have h := scanChars_testBit cs 0 (0, 0) j
  constructor
  · have := h.1; simpa [Pauli.fromStringOperator, Nat.zero_testBit] using this
  · have := h.2; simpa [Pauli.fromStringOperator, Nat.zero_testBit] using this

lemma Pauli.x_eq_testBit (p : Pauli) (j : Nat) :
    p.x j = if p.r.testBit j then 1 else 0 := shiftRight_and_one p.r j

lemma Pauli.z_eq_testBit (p : Pauli) (j : Nat) :
    p.z j = if p.s.testBit j then 1 else 0 := shiftRight_and_one p.s j

lemma list_range_map_sum {M : Type} [AddCommMonoid M] (n : Nat) (f : Nat → M) :
    ((List.range n).map f).sum = ∑ i ∈ Finset.range n, f i := by
  induction n with
  | zero => simp
  | succ n ih => rw [List.range_succ]; simp [ih, Finset.sum_range_succ]

lemma popcount64_eq_sum (x : Nat) :
    popcount64 x = ∑ i ∈ Finset.range 64, (if x.testBit i then 1 else 0) := by
  rw [popcount64, list_range_map_sum]
  refine Finset.sum_congr rfl fun i _ => ?_
  rw [← Nat.and_one_is_mod (x >>> i), shiftRight_and_one]

lemma popcount64_compl {x : Nat} (hx : x < 2 ^ 64) :
    popcount64 (x ^^^ (2 ^ 64 - 1)) + popcount64 x = 64 := by
  rw [popcount64_eq_sum, popcount64_eq_sum, ← Finset.sum_add_distrib]
  have h : ∀ i ∈ Finset.range 64,
      ((if (x ^^^ (2 ^ 64 - 1)).testBit i then 1 else 0) + (if x.testBit i then 1 else 0)) = 1 := by
    intro i hi
    rw [Finset.mem_range] at hi
    rw [Nat.testBit_xor, Nat.testBit_two_pow_sub_one]
    cases hb : x.testBit i <;> simp [hb, hi]
  rw [Finset.sum_congr rfl h]
  simp

lemma popcount64_le_of_lt {x n : Nat} (hx : x < 2 ^ n) (hn : n ≤ 64) : popcount64 x ≤ n := by
  rw [popcount64_eq_sum]
  rw [← Finset.sum_subset (Finset.range_subset.mpr hn)]
  · calc (∑ i ∈ Finset.range n, (if x.testBit i then 1 else 0))
        ≤ ∑ _i ∈ Finset.range n, 1 := by
          refine Finset.sum_le_sum fun i _ => ?_
          split <;> omega
      _ = n := by simp
  · intro i _ hi
    rw [Finset.mem_range] at hi
    have : x < 2 ^ i := lt_of_lt_of_le hx (Nat.pow_le_pow_right (by omega) (by omega))
    simp [Nat.testBit_lt_two_pow this]

lemma phaseMark_cases (ph : BinaryPhase) : ph = 0 ∨ ph = 1 ∨ ph = 2 ∨ ph = 3 := by
  revert ph
  decide

lemma Pauli.ext_fields {p q : Pauli} (hr : p.r = q.r) (hs : p.s = q.s)
    (hn : p.n = q.n) (hph : p.phase = q.phase) : p = q := by
  cases p
  cases q
  simp_all

lemma take_two_eq_mark {rest : List Char} (h : rest.take 2 = ['-', 'i']) :
    rest.take 1 = ['-'] := by
  cases rest with
  | nil => simp at h
  | cons a t =>
    simp [List.take_succ_cons] at h
    simp [List.take_succ_cons, h.1]

lemma splitPhaseMark_mark (ph : BinaryPhase) (rest : List Char)
    (h1 : rest.take 1 ≠ ['i']) (h2 : rest.take 1 ≠ ['-']) :
    Pauli.splitPhaseMark (phaseMarkChars ph ++ rest) = (ph, rest) := by
  have h3 : rest.take 2 ≠ ['-', 'i'] := fun h => h2 (take_two_eq_mark h)
  rcases phaseMark_cases ph with h | h | h | h <;> subst h
  · have e : phaseMarkChars 0 = [] := by decide
    rw [e, List.nil_append, Pauli.splitPhaseMark, if_neg h1, if_neg h3, if_neg h2]
  · have e : phaseMarkChars 1 = ['i'] := by decide
    rw [e, List.cons_append, List.nil_append, Pauli.splitPhaseMark]
    simp [List.take_succ_cons]
  · have e : phaseMarkChars 2 = ['-'] := by decide
    rw [e, List.cons_append, List.nil_append, Pauli.splitPhaseMark]
    have c1 : ('-' :: rest).take 1 ≠ ['i'] := by simp [List.take_succ_cons]
    have c2 : ('-' :: rest).take 2 ≠ ['-', 'i'] := by
      simp only [List.take_succ_cons]
      intro hc
      exact h1 (by simpa using hc)
    rw [if_neg c1, if_neg c2, if_pos (by simp [List.take_succ_cons])]
    simp
  · have e : phaseMarkChars 3 = ['-', 'i'] := by decide
    rw [e, List.cons_append, List.cons_append, List.nil_append, Pauli.splitPhaseMark]
    have c1 : ('-' :: 'i' :: rest).take 1 ≠ ['i'] := by simp [List.take_succ_cons]
    rw [if_neg c1, if_pos (by simp [List.take_succ_cons])]
    simp

lemma pauliChar_mem (v : Nat) :
    Pauli.pauliChar v = 'I' ∨ Pauli.pauliChar v = 'X'
    ∨ Pauli.pauliChar v = 'Z' ∨ Pauli.pauliChar v = 'Y' := by
  rcases v with _ | _ | _ | _ | v <;> simp [Pauli.pauliChar, List.getD]

lemma toChars_take_ne (p : Pauli) :
    p.toChars.take 1 ≠ ['i'] ∧ p.toChars.take 1 ≠ ['-'] := by
  rw [Pauli.toChars]
  cases hn : p.n with
  | zero => simp
  | succ k =>
    rw [List.range_succ_eq_map, List.map_cons, List.take_succ_cons]
    rcases pauliChar_mem (p.x 0 + p.z 0 * 2) with h | h | h | h <;> rw [h] <;> simp

lemma toChars_getD (p : Pauli) (j : Nat) :
    p.toChars.getD j 'I'
      = if j < p.n then Pauli.pauliChar (p.x j + p.z j * 2) else 'I' := by
  rw [Pauli.toChars, List.getD_eq_getElem?_getD, List.getElem?_map]
  by_cases h : j < p.n
  · rw [List.getElem?_range h]
    simp [h]
  · rw [List.getElem?_eq_none (by simpa using h)]
    simp [h]

lemma xBitB_pauliChar (p : Pauli) (j : Nat) :
    xBitB (Pauli.pauliChar (p.x j + p.z j * 2)) = p.r.testBit j := by
  rw [Pauli.x_eq_testBit, Pauli.z_eq_testBit]
  cases hr : p.r.testBit j <;> cases hs : p.s.testBit j <;> decide

lemma zBitB_pauliChar (p : Pauli) (j : Nat) :
    zBitB (Pauli.pauliChar (p.x j + p.z j * 2)) = p.s.testBit j := by
  rw [Pauli.x_eq_testBit, Pauli.z_eq_testBit]
  cases hr : p.r.testBit j <;> cases hs : p.s.testBit j <;> decide

lemma fromStringOperator_toChars (p : Pauli) (hn : p.n ≤ 64)
    (hr : p.r < 2 ^ p.n) (hs : p.s < 2 ^ p.n) :
    Pauli.fromStringOperator p.toChars = { r := p.r, s := p.s, n := p.n, phase := 0 } := by
  have hlen : p.toChars.length = p.n := by simp [Pauli.toChars]
  have hrEq : (Pauli.fromStringOperator p.toChars).r = p.r := by
    refine Nat.eq_of_testBit_eq fun j => ?_
    rw [(fromStringOperator_testBit p.toChars j).1, toChars_getD]
    by_cases h : j < p.n
    · rw [if_pos h, xBitB_pauliChar]
    · rw [if_neg h]
      have : p.r < 2 ^ j :=
        lt_of_lt_of_le hr (Nat.pow_le_pow_right (by omega) (by omega))
      simp [xBitB, Nat.testBit_lt_two_pow this]
  have hsEq : (Pauli.fromStringOperator p.toChars).s = p.s := by
    refine Nat.eq_of_testBit_eq fun j => ?_
    rw [(fromStringOperator_testBit p.toChars j).2, toChars_getD]
    by_cases h : j < p.n
    · rw [if_pos h, zBitB_pauliChar]
    · rw [if_neg h]
      have : p.s < 2 ^ j :=
        lt_of_lt_of_le hs (Nat.pow_le_pow_right (by omega) (by omega))
      simp [zBitB, Nat.testBit_lt_two_pow this]
  have hnEq : (Pauli.fromStringOperator p.toChars).n = p.n := by
    simp [Pauli.fromStringOperator, hlen]
  have hphEq : (Pauli.fromStringOperator p.toChars).phase = 0 := rfl
  cases hq : Pauli.fromStringOperator p.toChars
  rw [hq] at hrEq hsEq hnEq hphEq
  simp_all

/-- C7: parsing `toString()` of an operator, re-prefixed with its phase marker,
recovers the operator exactly (member-wise on r, s, n, phase), for operators
whose bit-fields are confined to their `n ≤ 64` qubits. -/
theorem pauli_roundtrip (p : Pauli) (hn : p.n ≤ 64)
    (hr : p.r < 2 ^ p.n) (hs : p.s < 2 ^ p.n) :
    Pauli.ofString (phaseMarkStr p.getPhase ++ p.toString) = p := by
  have hchars : Pauli.ofString (phaseMarkStr p.getPhase ++ p.toString)
      = Pauli.ofChars (phaseMarkChars p.getPhase ++ p.toChars) := rfl
  rw [hchars]
  simp only [Pauli.ofChars]
  rw [splitPhaseMark_mark p.getPhase p.toChars (toChars_take_ne p).1 (toChars_take_ne p).2,
    fromStringOperator_toChars p hn hr hs]
  refine Pauli.ext_fields rfl rfl rfl ?_
  simp only [Pauli.getPhase, Pauli.getYPhase]
  ring

/-- C7 witness: the theorem applied to the operator parsed from `-iXYZ`. -/
theorem pauli_roundtrip_witness :
    Pauli.ofString (phaseMarkStr (Pauli.ofChars ['-', 'i', 'X', 'Y', 'Z']).getPhase
        ++ (Pauli.ofChars ['-', 'i', 'X', 'Y', 'Z']).toString)
      = Pauli.ofChars ['-', 'i', 'X', 'Y', 'Z'] :=
  pauli_roundtrip (Pauli.ofChars ['-', 'i', 'X', 'Y', 'Z'])
    (by decide) (by decide) (by decide)

lemma xBitB_sanitizeChar (c : Char) : xBitB (sanitizeChar c) = xBitB c := by
  rw [sanitizeChar]
  split
  · rfl
  · next h =>
    push_neg at h
    simp [xBitB, h.2.1, h.2.2.1]

lemma zBitB_sanitizeChar (c : Char) : zBitB (sanitizeChar c) = zBitB c := by
  rw [sanitizeChar]
  split
  · rfl
  · next h =>
    push_neg at h
    simp [zBitB, h.2.2.1, h.2.2.2]

lemma sanitizeChar_mem (c : Char) :
    sanitizeChar c = 'I' ∨ sanitizeChar c = 'X'
    ∨ sanitizeChar c = 'Y' ∨ sanitizeChar c = 'Z' := by
  rw [sanitizeChar]
  split
  · next h => tauto
  · tauto

lemma getD_map_sanitize_x (l : List Char) (i : Nat) :
    xBitB ((l.map sanitizeChar).getD i 'I') = xBitB (l.getD i 'I') := by
  rw [List.getD_eq_getElem?_getD, List.getElem?_map, List.getD_eq_getElem?_getD]
  cases h : l[i]? with
  | none => simp
  | some c => simp [xBitB_sanitizeChar]

lemma getD_map_sanitize_z (l : List Char) (i : Nat) :
    zBitB ((l.map sanitizeChar).getD i 'I') = zBitB (l.getD i 'I') := by
  rw [List.getD_eq_getElem?_getD, List.getElem?_map, List.getD_eq_getElem?_getD]
  cases h : l[i]? with
  | none => simp
  | some c => simp [zBitB_sanitizeChar]

lemma map_sanitize_take_ne (l : List Char) :
    (l.map sanitizeChar).take 1 ≠ ['i'] ∧ (l.map sanitizeChar).take 1 ≠ ['-'] := by
  cases l with
  | nil => simp
  | cons c t =>
    rw [List.map_cons, List.take_succ_cons]
    rcases sanitizeChar_mem c with h | h | h | h <;> rw [h] <;> simp

/-- C8: the string constructor never rejects its input — it is a total parse in
which every character outside `{I,X,Y,Z}` behaves exactly as `I`: `numQubits`
is the length of the string after the recognised phase marker, each qubit's
X/Z bit comes from the corresponding character alone (`0` for unrecognised
characters), and replacing every unrecognised character by `I` yields the very
same operator (in particular, the same phase). -/
theorem ofChars_tolerant (cs : List Char) :
    (Pauli.ofChars cs).n = (Pauli.splitPhaseMark cs).2.length
    ∧ (∀ i, (Pauli.ofChars cs).x i
        = if xBitB ((Pauli.splitPhaseMark cs).2.getD i 'I') then 1 else 0)
    ∧ (∀ i, (Pauli.ofChars cs).z i
        = if zBitB ((Pauli.splitPhaseMark cs).2.getD i 'I') then 1 else 0)
    ∧ Pauli.ofChars cs
        = Pauli.ofChars (phaseMarkChars (Pauli.splitPhaseMark cs).1
            ++ (Pauli.splitPhaseMark cs).2.map sanitizeChar) := by
  have hrEq : (Pauli.fromStringOperator ((Pauli.splitPhaseMark cs).2.map sanitizeChar)).r
      = (Pauli.fromStringOperator (Pauli.splitPhaseMark cs).2).r := by
    refine Nat.eq_of_testBit_eq fun j => ?_
    rw [(fromStringOperator_testBit _ j).1, (fromStringOperator_testBit _ j).1,
      getD_map_sanitize_x]
  have hsEq : (Pauli.fromStringOperator ((Pauli.splitPhaseMark cs).2.map sanitizeChar)).s
      = (Pauli.fromStringOperator (Pauli.splitPhaseMark cs).2).s := by
    refine Nat.eq_of_testBit_eq fun j => ?_
    rw [(fromStringOperator_testBit _ j).2, (fromStringOperator_testBit _ j).2,
      getD_map_sanitize_z]
  refine ⟨by simp [Pauli.ofChars, Pauli.fromStringOperator], fun i => ?_, fun i => ?_, ?_⟩
  · rw [Pauli.x_eq_testBit]
    have : (Pauli.ofChars cs).r = (Pauli.fromStringOperator (Pauli.splitPhaseMark cs).2).r :=
      rfl
    rw [this, (fromStringOperator_testBit _ i).1]
  · rw [Pauli.z_eq_testBit]
    have : (Pauli.ofChars cs).s = (Pauli.fromStringOperator (Pauli.splitPhaseMark cs).2).s :=
      rfl
    rw [this, (fromStringOperator_testBit _ i).2]
  · have hfull : Pauli.fromStringOperator ((Pauli.splitPhaseMark cs).2.map sanitizeChar)
        = Pauli.fromStringOperator (Pauli.splitPhaseMark cs).2 :=
      Pauli.ext_fields hrEq hsEq (by simp [Pauli.fromStringOperator]) rfl
    simp only [Pauli.ofChars]
    rw [splitPhaseMark_mark (Pauli.splitPhaseMark cs).1
        ((Pauli.splitPhaseMark cs).2.map sanitizeChar)
        (map_sanitize_take_ne _).1 (map_sanitize_take_ne _).2, hfull]

lemma slackSat_iff_arith (lb ub : Option Int) (L : Int) :
    SlackSat lb ub L
      ↔ (L % 2 = 0 ∧ (∀ l, lb = some l → 2 * l ≤ L) ∧ (∀ u, ub = some u → L ≤ 2 * u)) := by
  constructor
  · rintro ⟨k, h1, h2, h3⟩
    refine ⟨by omega, fun l hl => ?_, fun u hu => ?_⟩
    · have := h1 l hl
      omega
    · have := h2 u hu
      omega
  · rintro ⟨h1, h2, h3⟩
    refine ⟨L / 2, fun l hl => ?_, fun u hu => ?_, by omega⟩
    · have := h2 l hl
      omega
    · have := h3 u hu
      omega

lemma slackSatB_iff (lb ub : Option Int) (L : Int) :
    slackSatB lb ub L = true ↔ SlackSat lb ub L := by
  rw [slackSat_iff_arith]
  cases lb <;> cases ub <;> simp [slackSatB, and_assoc]

lemma checkSat_iff (model : SolverModel) (σ : Assignment) :
    checkSat model σ = true ↔ Satisfies model σ := by
  rw [checkSat, Satisfies]
  simp only [Bool.and_eq_true, List.all_eq_true, List.mem_range, decide_eq_true_iff,
    Bool.or_eq_true]
  constructor
  · rintro ⟨⟨h1, h2⟩, h3⟩
    refine ⟨fun b i hi => ?_, h2, fun e he => (slackSatB_iff _ _ _).mp (h3 e he)⟩
    exact h1 i hi b (by cases b <;> simp)
  · rintro ⟨h1, h2, h3⟩
    exact ⟨⟨fun i hi b _ => h1 b i hi, h2⟩, fun e he => (slackSatB_iff _ _ _).mpr (h3 e he)⟩

lemma idealSolve_honest (model : SolverModel) (σ : Assignment)
    (h : idealSolve model = SolverOutcome.normal 2 σ) : Satisfies model σ := by
  rw [idealSolve] at h
  cases hf : (binLists (4 * model.numQubits)).find? (fun l => checkSat model (listAssign l)) with
  | none =>
    rw [hf] at h
    injection h with h1 _
    exact absurd h1 (by decide)
  | some l =>
    rw [hf] at h
    injection h with _ h2
    have hsat := List.find?_some hf
    rw [← h2]
    exact (checkSat_iff _ _).mp (by simpa using hsat)

lemma runHT_some (g : Graph) (RS : List Pauli) (m : Nat)
    (solver : SolverModel → SolverOutcome) (gates : List BinaryCliffordGate)
    (h : (runHT g RS m solver).result = some gates) :
    ∃ σ, solver (buildModel g RS m) = SolverOutcome.normal 2 σ
      ∧ gates = decodeGates σ g.numVertices := by
  rw [runHT] at h
  cases hs : solver (buildModel g RS m) with
  | normal status σ =>
    simp only [hs] at h
    by_cases h2 : status = 2
    · subst h2
      rw [if_neg (by simp)] at h
      exact ⟨σ, rfl, (Option.some.inj h).symm⟩
    · rw [if_pos h2] at h
      simp at h
  | grbException code msg =>
    simp only [hs] at h
    exact Option.noConfusion h
  | otherException =>
    simp only [hs] at h
    exact Option.noConfusion h

lemma decodeGates_mem (σ : Assignment) (n : Nat) (gate : BinaryCliffordGate)
    (h : gate ∈ decodeGates σ n) :
    ∃ i < n, gate = ⟨σ Block.bxx i, σ Block.bxz i, σ Block.bzx i, σ Block.bzz i⟩ := by
  rw [decodeGates] at h
  obtain ⟨i, hi, hg⟩ := List.mem_map.mp h
  exact ⟨i, List.mem_range.mp hi, hg.symm⟩

lemma decodeGates_getD (σ : Assignment) (n i : Nat) (hi : i < n) :
    (decodeGates σ n).getD i default
      = ⟨σ Block.bxx i, σ Block.bxz i, σ Block.bzx i, σ Block.bzz i⟩ := by
  rw [decodeGates, List.getD_eq_getElem?_getD, List.getElem?_map, List.getElem?_range hi]
  rfl

/-- C1: whenever either `findHTCircuit` variant returns a gate sequence, every
returned descriptor satisfies `axx·azz + axz·azx ≡ 1 (mod 2)`, under the
hypothesis that the assignment reported feasible by the external solver
satisfies every constraint added to the model. -/
theorem findHTCircuit_symplectic_validity
    (g : Graph) (RS : List Pauli) (solver : SolverModel → SolverOutcome)
    (hsolver : ∀ model σ, solver model = SolverOutcome.normal 2 σ → Satisfies model σ) :
    (∀ gates, (findHTCircuitFixed g RS solver).result = some gates →
      ∀ gate ∈ gates, (gate.axx * gate.azz + gate.axz * gate.azx) % 2 = 1)
    ∧ (∀ gates, (findHTCircuitDyn g RS solver).result = some gates →
      ∀ gate ∈ gates, (gate.axx * gate.azz + gate.axz * gate.azx) % 2 = 1) := by
  have main : ∀ m gates, (runHT g RS m solver).result = some gates →
      ∀ gate ∈ gates, (gate.axx * gate.azz + gate.axz * gate.azx) % 2 = 1 := by
    intro m gates h gate hg
    obtain ⟨σ, hs, hdec⟩ := runHT_some g RS m solver gates h
    subst hdec
    obtain ⟨i, hi, hgate⟩ := decodeGates_mem σ g.numVertices gate hg
    have hquad := (hsolver _ _ hs).2.1 i hi
    subst hgate
    show (σ Block.bxx i * σ Block.bzz i + σ Block.bxz i * σ Block.bzx i) % 2 = 1
    rw [hquad]
    decide
  exact ⟨main g.numVertices, main RS.length⟩

/-- C1 witness: the theorem applied to the 1-vertex empty graph with generator
`X` and the exhaustive model solver, which returns the gate `(1,0,0,1)`. -/
theorem findHTCircuit_symplectic_validity_witness :
    (findHTCircuitFixed graphK1 [Pauli.ofChars ['X']] idealSolve).result
      = some [⟨1, 0, 0, 1⟩]
    ∧ ∀ gate ∈ [(⟨1, 0, 0, 1⟩ : BinaryCliffordGate)],
        (gate.axx * gate.azz + gate.axz * gate.azx) % 2 = 1 :=
  ⟨by decide,
   (findHTCircuit_symplectic_validity graphK1 [Pauli.ofChars ['X']] idealSolve
      idealSolve_honest).1 [⟨1, 0, 0, 1⟩] (by decide)⟩

/-- C4 counterexample: on the 1-vertex empty graph with the two generators
`X`, `Z` (a sequence longer than `numQubits`), the fixed-size variant uses only
the first `numQubits` generators and reports feasible, while the
dynamically-sized variant uses all `RS.size()` generators and reports no
solution — the two variants disagree for this input. -/
theorem findHTCircuit_variants_differ :
    ((findHTCircuitFixed graphK1 [Pauli.ofChars ['X'], Pauli.ofChars ['Z']]
        idealSolve).result).isSome = true
    ∧ ((findHTCircuitDyn graphK1 [Pauli.ofChars ['X'], Pauli.ofChars ['Z']]
        idealSolve).result).isSome = false := by
  decide

lemma lhsForm_mem (g : Graph) (RS : List Pauli) (m i j : Nat)
    (hi : i < g.numVertices) (hj : j < m) :
    lhsForm g RS i j ∈ (buildModel g RS m).linConstrs := by
  rw [buildModel]
  simp only [List.mem_flatMap, List.mem_map, List.mem_range]
  exact ⟨i, hi, j, hj, rfl⟩

lemma lhsForm_eval (g : Graph) (RS : List Pauli) (i j : Nat) (σ : Assignment) :
    (lhsForm g RS i j).eval σ
      = (∑ k ∈ Finset.range g.numVertices,
          (g.adjInt i k * Rmat RS k j * σ Block.bxx k
            + g.adjInt i k * Smat RS k j * σ Block.bxz k))
        + Rmat RS i j * σ Block.bzx i + Smat RS i j * σ Block.bzz i := by
  rw [lhsForm, LinForm.eval]
  simp only [List.map_append, List.sum_append, List.map_map, Function.comp_def,
    List.map_cons, List.map_nil, List.sum_cons, List.sum_nil]
  rw [list_range_map_sum, list_range_map_sum, ← Finset.sum_add_distrib]
  ring

lemma runHT_sound (g : Graph) (RS : List Pauli) (m : Nat)
    (solver : SolverModel → SolverOutcome)
    (hsolver : ∀ model σ, solver model = SolverOutcome.normal 2 σ → Satisfies model σ)
    (gates : List BinaryCliffordGate)
    (h : (runHT g RS m solver).result = some gates) :
    specEqSystem g RS m gates ∧ specSymplectic g gates := by
  obtain ⟨σ, hs, hdec⟩ := runHT_some g RS m solver gates h
  subst hdec
  have hsat := hsolver _ _ hs
  constructor
  · intro i hi j hj
    obtain ⟨k, h1, h2, h3⟩ := hsat.2.2 _ (lhsForm_mem g RS m i j hi hj)
    have hterm : ∀ k' ∈ Finset.range g.numVertices,
        g.adjInt i k' * (((decodeGates σ g.numVertices).getD k' default).axx * Rmat RS k' j
          + ((decodeGates σ g.numVertices).getD k' default).axz * Smat RS k' j)
        = g.adjInt i k' * Rmat RS k' j * σ Block.bxx k'
          + g.adjInt i k' * Smat RS k' j * σ Block.bxz k' := by
      intro k' hk'
      rw [decodeGates_getD σ _ k' (List.mem_range.mp hk')]
      ring
    have hsum : ((∑ k' ∈ Finset.range g.numVertices,
        g.adjInt i k' * (((decodeGates σ g.numVertices).getD k' default).axx * Rmat RS k' j
          + ((decodeGates σ g.numVertices).getD k' default).axz * Smat RS k' j))
        + ((decodeGates σ g.numVertices).getD i default).azx * Rmat RS i j
        + ((decodeGates σ g.numVertices).getD i default).azz * Smat RS i j)
        = (lhsForm g RS i j).eval σ := by
      rw [Finset.sum_congr rfl hterm, lhsForm_eval, decodeGates_getD σ _ i hi]
      ring
    rw [hsum, h3]
    exact Int.mul_emod_right 2 k
  · intro i hi
    rw [decodeGates_getD σ _ i hi]
    have hquad := hsat.2.1 i hi
    show (σ Block.bxx i * σ Block.bzz i + σ Block.bxz i * σ Block.bzx i) % 2 = 1
    rw [hquad]
    decide

/-- C4 amended: for generator sequences whose length equals the number of
qubits, the fixed-size and dynamically-sized variants behave identically
(same feasibility outcome and same result value), and when a gate sequence is
returned each variant's output independently satisfies the defining equation
system and the symplectic condition — assuming the external solver's reported
feasible assignment satisfies every constraint of the model. -/
theorem findHTCircuit_variants_agree (g : Graph) (RS : List Pauli)
    (solver : SolverModel → SolverOutcome)
    (hlen : RS.length = g.numVertices)
    (hsolver : ∀ model σ, solver model = SolverOutcome.normal 2 σ → Satisfies model σ) :
    findHTCircuitFixed g RS solver = findHTCircuitDyn g RS solver
    ∧ (∀ gates, (findHTCircuitFixed g RS solver).result = some gates →
        specEqSystem g RS RS.length gates ∧ specSymplectic g gates)
    ∧ (∀ gates, (findHTCircuitDyn g RS solver).result = some gates →
        specEqSystem g RS RS.length gates ∧ specSymplectic g gates) := by
  refine ⟨by rw [findHTCircuitFixed, findHTCircuitDyn, hlen], ?_, ?_⟩
  · intro gates h
    have hres := runHT_sound g RS g.numVertices solver hsolver gates h
    rw [hlen]
    exact hres
  · intro gates h
    exact runHT_sound g RS RS.length solver hsolver gates h

/-- C4 witness: the amended theorem applied to the 1-vertex empty graph, the
single generator `X`, and the exhaustive model solver. -/
theorem findHTCircuit_variants_agree_witness :
    findHTCircuitFixed graphK1 [Pauli.ofChars ['X']] idealSolve
      = findHTCircuitDyn graphK1 [Pauli.ofChars ['X']] idealSolve :=
  (findHTCircuit_variants_agree graphK1 [Pauli.ofChars ['X']] idealSolve rfl
    idealSolve_honest).1

/-- C5 counterexample: the slack variables of the built model carry the
explicit bounds `-1000`/`1000` (`addVar(-1000, 1000, 0.0, GRB_INTEGER, "")`),
so they are not unbounded, and the claimed equivalence fails: `2002` is even,
yet the bounded constraint `0.5 · 2002 = k` has no admissible integer
solution. -/
theorem slack_bounded_counterexample :
    (buildModel graphK1 [Pauli.ofChars ['X']] 1).slackLB ≠ none
    ∧ (buildModel graphK1 [Pauli.ofChars ['X']] 1).slackUB ≠ none
    ∧ ¬ SlackSat (buildModel graphK1 [Pauli.ofChars ['X']] 1).slackLB
        (buildModel graphK1 [Pauli.ofChars ['X']] 1).slackUB 2002
    ∧ (2002 : Int) % 2 = 0 := by
  refine ⟨by decide, by decide, ?_, by decide⟩
  rintro ⟨k, h1, h2, h3⟩
  have ha := h1 (-1000) rfl
  have hb := h2 1000 rfl
  omega

lemma list_map_const_sum (n m : Nat) : ((List.range n).map fun _ => m).sum = n * m := by
  induction n with
  | zero => simp
  | succ k ih =>
    rw [List.range_succ]
    simp [ih]
    ring

/-- C5 amended: for each of the `n·m` (qubit, generator) equations,
`findHTCircuit` introduces one integer slack variable `k` bounded to
`[-1000, 1000]` and adds the linear constraint `0.5 · linearize(lhs[i,j]) = k`;
with those bounds the constraint is satisfiable in integers iff the linearized
value is even and of magnitude at most 2000. -/
theorem buildModel_slack_constraints (g : Graph) (RS : List Pauli) (m : Nat) :
    (buildModel g RS m).linConstrs.length = g.numVertices * m
    ∧ (buildModel g RS m).slackLB = some (-1000)
    ∧ (buildModel g RS m).slackUB = some 1000
    ∧ (buildModel g RS m).linConstrs
        = ((List.range g.numVertices).flatMap fun i =>
            (List.range m).map fun j => lhsForm g RS i j)
    ∧ (∀ L : Int,
        SlackSat (buildModel g RS m).slackLB (buildModel g RS m).slackUB L
          ↔ (L % 2 = 0 ∧ -2000 ≤ L ∧ L ≤ 2000)) := by
  refine ⟨?_, rfl, rfl, rfl, ?_⟩
  · rw [buildModel, List.length_flatMap]
    have h1 : List.map (List.length ∘ fun i => (List.range m).map fun j => lhsForm g RS i j)
        (List.range g.numVertices)
        = (List.range g.numVertices).map fun _ => m := by
      refine List.map_congr_left fun i _ => ?_
      simp
    rw [h1, list_map_const_sum]
  · intro L
    rw [slackSat_iff_arith]
    constructor
    · rintro ⟨h1, h2, h3⟩
      have ha := h2 (-1000) rfl
      have hb := h3 1000 rfl
      exact ⟨h1, by omega, by omega⟩
    · rintro ⟨h1, h2, h3⟩
      refine ⟨h1, fun l hl => ?_, fun u hu => ?_⟩
      · injection hl with hl
        omega
      · injection hu with hu
        omega

/-- C6: either variant returns the empty result exactly when the solver run
does not come back with status 2 (optimal) — i.e. any other status, a
`GRBException`, or any other exception — and on the exception paths it prints
a diagnostic and still returns the very same `nullopt` value, without
propagating the exception. -/
theorem findHTCircuit_failure_cases (g : Graph) (RS : List Pauli)
    (solver : SolverModel → SolverOutcome) :
    ((findHTCircuitFixed g RS solver).result = none
      ↔ ∀ σ, solver (buildModel g RS g.numVertices) ≠ SolverOutcome.normal 2 σ)
    ∧ (∀ code msg,
        solver (buildModel g RS g.numVertices) = SolverOutcome.grbException code msg →
        findHTCircuitFixed g RS solver
          = ⟨none, [r"Error code = " ++ ToString.toString code, msg]⟩)
    ∧ (solver (buildModel g RS g.numVertices) = SolverOutcome.otherException →
        findHTCircuitFixed g RS solver = ⟨none, [r"Exception during optimization"]⟩)
    ∧ ((findHTCircuitDyn g RS solver).result = none
      ↔ ∀ σ, solver (buildModel g RS RS.length) ≠ SolverOutcome.normal 2 σ)
    ∧ (∀ code msg,
        solver (buildModel g RS RS.length) = SolverOutcome.grbException code msg →
        findHTCircuitDyn g RS solver
          = ⟨none, [r"Error code = " ++ ToString.toString code, msg]⟩)
    ∧ (solver (buildModel g RS RS.length) = SolverOutcome.otherException →
        findHTCircuitDyn g RS solver = ⟨none, [r"Exception during optimization"]⟩) := by
  have main : ∀ m,
      ((runHT g RS m solver).result = none
        ↔ ∀ σ, solver (buildModel g RS m) ≠ SolverOutcome.normal 2 σ)
      ∧ (∀ code msg,
          solver (buildModel g RS m) = SolverOutcome.grbException code msg →
          runHT g RS m solver
            = ⟨none, [r"Error code = " ++ ToString.toString code, msg]⟩)
      ∧ (solver (buildModel g RS m) = SolverOutcome.otherException →
          runHT g RS m solver = ⟨none, [r"Exception during optimization"]⟩) := by
    intro m
    refine ⟨?_, fun code msg hgrb => by simp only [runHT, hgrb], fun hexc => by
      simp only [runHT, hexc]⟩
    cases hs : solver (buildModel g RS m) with
    | normal status σ =>
      simp only [runHT, hs]
      by_cases h2 : status = 2
      · subst h2
        rw [if_neg (by simp)]
        constructor
        · intro h
          exact absurd h (by simp)
        · intro h
          exact absurd rfl (h σ)
      · rw [if_pos h2]
        constructor
        · intro _ σ' hσ'
          injection hσ' with hst _
          exact h2 hst
        · intro _
          trivial
    | grbException code msg =>
      simp only [runHT, hs]
      constructor
      · intro _ σ' hσ'
        exact SolverOutcome.noConfusion hσ'
      · intro _
        trivial
    | otherException =>
      simp only [runHT, hs]
      constructor
      · intro _ σ' hσ'
        exact SolverOutcome.noConfusion hσ'
      · intro _
        trivial
  obtain ⟨a1, a2, a3⟩ := main g.numVertices
  obtain ⟨b1, b2, b3⟩ := main RS.length
  exact ⟨a1, a2, a3, b1, b2, b3⟩

/-- C6 witness: the theorem applied to a solver that throws a non-Gurobi
exception — the call returns `nullopt` with the printed diagnostic. -/
theorem findHTCircuit_failure_cases_witness :
    findHTCircuitFixed graphK1 [Pauli.ofChars ['X']]
        (fun _ => SolverOutcome.otherException)
      = ⟨none, [r"Exception during optimization"]⟩ :=
  (findHTCircuit_failure_cases graphK1 [Pauli.ofChars ['X']]
    (fun _ => SolverOutcome.otherException)).2.2.1 rfl

/-- C2 evaluated at the failing input: on the operator `Z` (r = 0, s = 1, n = 1),
calling `setZ 0 1` leaves the Z bit at 0 rather than 1, because the source
computes `s ^= (-value ^ r) & (1 << qubit)` with `r` where `s` is meant; the
claim (and the member's own documentation) require `z 0 = 1` afterwards. -/
theorem setZ_failing_input :
    ((Pauli.ofChars ['Z']).setZ 0 1).z 0 = 0
    ∧ (Pauli.ofChars ['Z']).z 0 = 1
    ∧ ((Pauli.ofChars ['Z']).setZ 0 1).x 0 = 0 := by decide

/-- C3 counterexample: for the operator `YY`, `popcount(r & s) = 2`, so the
correction term the code subtracts is 2 (mod 4), not the parity 0; `getPhase`
is 0 while the claimed formula gives 2. -/
theorem getPhase_parity_counterexample :
    (Pauli.ofChars ['Y', 'Y']).getPhase ≠
      (Pauli.ofChars ['Y', 'Y']).getXZPhase -
        ((popcount64 ((Pauli.ofChars ['Y', 'Y']).r &&& (Pauli.ofChars ['Y', 'Y']).s) % 2 : Nat)
          : BinaryPhase) := by decide

/-- C3 amended: `getPhase()` equals `getXZPhase()` minus the full
`popcount(r & s)` taken mod 4 (not merely its parity), in the additive group
mod 4. -/
theorem getPhase_eq_xzPhase_sub_popcount (p : Pauli) :
    p.getPhase = p.getXZPhase - ((popcount64 (p.r &&& p.s) : Nat) : BinaryPhase) := rfl

/-- C9: the commutator is symmetric, and equals 1 exactly when
`popcount((r1 & s2) ^ (r2 & s1))` is odd. -/
theorem commutator_symm_and_odd (p1 p2 : Pauli) (h : p1.n = p2.n) :
    commutator p1 p2 = commutator p2 p1
    ∧ (commutator p1 p2 = 1
        ↔ Odd (popcount64 ((p1.r &&& p2.s) ^^^ (p2.r &&& p1.s)))) := by
  constructor
  · unfold commutator
    rw [Nat.xor_comm]
  · unfold commutator
    rw [Nat.and_one_is_mod, Nat.odd_iff]

/-- C9 witness: the theorem applied to the pair `XY`, `ZZ`. -/
theorem commutator_symm_and_odd_witness :
    commutator (Pauli.ofChars ['X', 'Y']) (Pauli.ofChars ['Z', 'Z'])
      = commutator (Pauli.ofChars ['Z', 'Z']) (Pauli.ofChars ['X', 'Y']) :=
  (commutator_symm_and_odd (Pauli.ofChars ['X', 'Y']) (Pauli.ofChars ['Z', 'Z'])
    (by decide)).1

/-- C10: `getIdentityString` is the 64-bit complement of
`getXString | getZString`; for an operator whose bit-fields are confined to its
`n ≤ 64` qubits, every bit at positions `n..63` of it is set, its popcount is
`64 - pauliWeight()`, and for `n < 64` that popcount differs from
`identityCount()`. -/
theorem getIdentityString_spec (p : Pauli) (hn : p.n ≤ 64)
    (hr : p.r < 2 ^ p.n) (hs : p.s < 2 ^ p.n) :
    p.getIdentityString = (p.getXString ||| p.getZString) ^^^ (2 ^ 64 - 1)
    ∧ (∀ j, p.n ≤ j → j < 64 → p.getIdentityString.testBit j = true)
    ∧ ((popcount64 p.getIdentityString : Int) = 64 - (p.pauliWeight : Int))
    ∧ (p.n < 64 → (popcount64 p.getIdentityString : Int) ≠ p.identityCount) := by
  have hor : p.r ||| p.s < 2 ^ p.n := Nat.or_lt_two_pow hr hs
  have hor64 : p.r ||| p.s < 2 ^ 64 :=
    lt_of_lt_of_le hor (Nat.pow_le_pow_right (by omega) hn)
  have hw64 : p.pauliWeight ≤ 64 := popcount64_le_of_lt hor64 (by omega)
  have hwn : p.pauliWeight ≤ p.n := popcount64_le_of_lt hor hn
  have hcompl := popcount64_compl hor64
  refine ⟨rfl, ?_, ?_, ?_⟩
  · intro j hnj hj64
    rw [Pauli.getIdentityString, Nat.testBit_xor, Nat.testBit_two_pow_sub_one]
    have : (p.r ||| p.s).testBit j = false :=
      Nat.testBit_lt_two_pow
        (lt_of_lt_of_le hor (Nat.pow_le_pow_right (by omega) hnj))
    simp [this, hj64]
  · simp only [Pauli.getIdentityString, Pauli.pauliWeight] at hcompl hw64 ⊢
    omega
  · intro hnlt heq
    simp only [Pauli.getIdentityString, Pauli.identityCount, Pauli.pauliWeight]
      at hcompl hw64 hwn heq
    omega

/-- C10 witness: the theorem applied to the operator `XYZ`. -/
theorem getIdentityString_spec_witness :
    ((popcount64 (Pauli.ofChars ['X', 'Y', 'Z']).getIdentityString : Int)
      = 64 - ((Pauli.ofChars ['X', 'Y', 'Z']).pauliWeight : Int))
    ∧ ((popcount64 (Pauli.ofChars ['X', 'Y', 'Z']).getIdentityString : Int)
      ≠ (Pauli.ofChars ['X', 'Y', 'Z']).identityCount) :=
  ⟨(getIdentityString_spec (Pauli.ofChars ['X', 'Y', 'Z'])
      (by decide) (by decide) (by decide)).2.2.1,
   (getIdentityString_spec (Pauli.ofChars ['X', 'Y', 'Z'])
      (by decide) (by decide) (by decide)).2.2.2 (by decide)⟩

end Q
